import Mathlib

/-!
Shallow embedding of the fermion module of qiskit-addon-sqd
(src/qiskit_addon_sqd/fermion.py) together with proofs about the
configuration codec, the excitation expander, the integral rotator, the
gradient-descent inner loop and the orbital-optimization outer loop.

Numeric conventions: the Python code works with numpy / jax double-precision
arrays; the embedding models the numeric contents exactly, with `Nat` for the
determinant integers and `Rat` / `Real` for the floating-point entries.
-/

namespace SQD

/-! ## Error kinds (spec section 7)

The Python code raises `ValueError` with distinct messages; the spec names the
kinds `DimensionError` (parameter-length mismatch) and `ConfigurationError`
(non-uniform Hamming weight).  Indexing an empty array in numpy raises
`IndexError`, a third, distinct kind. -/

inductive FermionError where
  | dimensionError : FermionError
  | configError : FermionError
  | indexError : FermionError
deriving DecidableEq

/-! ## ConfigurationCodec: bitstring to determinant encoding
(`bitstring_matrix_to_ci_strs`, fermion.py lines 451-471) -/

/-- Big-endian encoding of one half-row: the loop
`ci_str[:] += bts_matrix[:, i] * 2 ** (norb - 1 - i)` accumulates, over the
columns `i` of the half, the weight `2 ^ (width - 1 - i)` for every set bit. -/
def encodeHalf (row : List Bool) : ℕ :=
  ∑ i ∈ Finset.range row.length, if row.getD i false then 2 ^ (row.length - 1 - i) else 0

/-- Modelled from the spec: the source contains no decoder, the spec's
round-trip property (section 8) refers to the canonical big-endian
bit-to-integer map, whose inverse reads bit `w - 1 - i` of the integer as
column `i`. -/
def decodeHalf (w v : ℕ) : List Bool :=
  (List.range w).map fun i => Nat.testBit v (w - 1 - i)

/-- Population count, the embedding of `format(addr, "b").count("1")`. -/
def popcount : ℕ → ℕ
  | 0 => 0
  | n + 1 => (n + 1) % 2 + popcount ((n + 1) / 2)
decreasing_by exact Nat.div_lt_self (Nat.succ_pos n) one_lt_two

/-- The embedding of `np.unique`: sort the list and drop duplicates. -/
def npUnique (l : List ℕ) : List ℕ :=
  (List.insertionSort (· ≤ ·) l).dedup

/-- The embedding of `np.union1d`: the sorted unique elements of the
concatenation of the two inputs. -/
def union1d (a b : List ℕ) : List ℕ :=
  npUnique (a ++ b)

/-- Embedding of `bitstring_matrix_to_ci_strs` (fermion.py lines 451-471):
split every row at `norb`, encode each half big-endian, reduce each side to
its sorted unique determinants, and when `open_shell` is false replace both
sides by their union.  The function returns the pair (right, left). -/
def bitstring_matrix_to_ci_strs (norb : ℕ) (rows : List (List Bool))
    (open_shell : Bool) : List ℕ × List ℕ :=
  let ci_str_left := rows.map fun r => encodeHalf (r.take norb)
  let ci_str_right := rows.map fun r => encodeHalf (r.drop norb)
  let ci_strs_right := npUnique ci_str_right
  let ci_strs_left := npUnique ci_str_left
  if open_shell then (ci_strs_right, ci_strs_left)
  else (union1d ci_strs_left ci_strs_right, union1d ci_strs_left ci_strs_right)

/-- Embedding of `_check_ci_strs` (fermion.py lines 511-533): read the first
element of the spin-up sector (an `IndexError` when the sector is empty),
compare every element's population count against it, then do the same for the
spin-down sector, and finally return the sorted unique determinants of both. -/
def check_ci_strs (up dn : List ℕ) : Except FermionError (List ℕ × List ℕ) :=
  match up with
  | [] => .error .indexError
  | u0 :: _ =>
    if up.all fun a => popcount a == popcount u0 then
      match dn with
      | [] => .error .indexError
      | d0 :: _ =>
        if dn.all fun a => popcount a == popcount d0 then
          .ok (npUnique up, npUnique dn)
        else .error .configError
    else .error .configError

/-- The configuration-validation prefix of `solve_fermion` (fermion.py lines
131-134): encode the bitstring matrix, then validate the sectors. -/
def solve_fermion_validate (norb : ℕ) (rows : List (List Bool))
    (open_shell : Bool) : Except FermionError (List ℕ × List ℕ) :=
  let cis := bitstring_matrix_to_ci_strs norb rows open_shell
  check_ci_strs cis.1 cis.2

/-! ### Codec lemmas -/

theorem encodeHalf_nil : encodeHalf [] = 0 := rfl

theorem encodeHalf_cons (b : Bool) (t : List Bool) :
    encodeHalf (b :: t) = (if b then 2 ^ t.length else 0) + encodeHalf t := by
  unfold encodeHalf
  rw [List.length_cons, Finset.sum_range_succ']
  simp only [List.getD_cons_succ, List.getD_cons_zero, Nat.add_sub_cancel, Nat.sub_zero]
  rw [Nat.add_comm]
  congr 1
  refine Finset.sum_congr rfl fun i _ => ?_
  congr 2
  omega

theorem encodeHalf_lt (row : List Bool) : encodeHalf row < 2 ^ row.length := by
  induction row with
  | nil => simp [encodeHalf_nil]
  | cons b t ih =>
    rw [encodeHalf_cons, List.length_cons, pow_succ]
    have hb : (if b then 2 ^ t.length else 0) ≤ 2 ^ t.length := by
      cases b <;> simp
    omega

theorem decodeHalf_encodeHalf (row : List Bool) :
    decodeHalf row.length (encodeHalf row) = row := by
  induction row with
  | nil => rfl
  | cons b t ih =>
    have hlt : encodeHalf t < 2 ^ t.length := encodeHalf_lt t
    have hv : encodeHalf (b :: t) = (if b then 2 ^ t.length else 0) + encodeHalf t :=
      encodeHalf_cons b t
    unfold decodeHalf
    rw [List.length_cons, List.range_succ_eq_map, List.map_cons]
    refine congrArg₂ List.cons ?_ ?_
    case _ =>
      -- head bit: testBit at position t.length recovers b
      rw [hv, Nat.add_sub_cancel, Nat.sub_zero, Nat.testBit_to_div_mod]
      cases b with
      | false => simp [Nat.div_eq_of_lt hlt]
      | true =>
        simp only [if_true]
        rw [Nat.add_div_left _ (Nat.pos_pow_of_pos t.length (by norm_num)),
          Nat.div_eq_of_lt hlt]
        simp
    case _ =>
      -- tail bits: positions below t.length agree with the encoding of t
      have hmod : encodeHalf (b :: t) % 2 ^ t.length = encodeHalf t := by
        rw [hv]
        cases b with
        | false => simpa using Nat.mod_eq_of_lt hlt
        | true => simpa using Nat.mod_eq_of_lt hlt
      rw [List.map_map]
      have : ∀ i ∈ List.range t.length,
          Nat.testBit (encodeHalf (b :: t)) (t.length + 1 - 1 - (Nat.succ i)) =
            Nat.testBit (encodeHalf t) (t.length - 1 - i) := by
        intro i hi
        rw [List.mem_range] at hi
        have harg : t.length + 1 - 1 - (Nat.succ i) = t.length - 1 - i := by omega
        rw [harg, ← hmod, Nat.testBit_mod_two_pow]
        have : t.length - 1 - i < t.length := by omega
        simp [this]
      calc (List.range t.length).map
            ((fun i => Nat.testBit (encodeHalf (b :: t)) (t.length + 1 - 1 - i)) ∘ Nat.succ)
          = (List.range t.length).map
              (fun i => Nat.testBit (encodeHalf t) (t.length - 1 - i)) :=
            List.map_congr_left this
        _ = t := ih

theorem npUnique_sorted (l : List ℕ) : List.Sorted (· ≤ ·) (npUnique l) :=
  (List.sorted_insertionSort (· ≤ ·) l).sublist (List.dedup_sublist _)

theorem npUnique_nodup (l : List ℕ) : (npUnique l).Nodup :=
  List.nodup_dedup _

theorem mem_npUnique {x : ℕ} {l : List ℕ} : x ∈ npUnique l ↔ x ∈ l := by
  unfold npUnique
  rw [List.mem_dedup, List.mem_insertionSort]

theorem mem_union1d {x : ℕ} {a b : List ℕ} : x ∈ union1d a b ↔ x ∈ a ∨ x ∈ b := by
  unfold union1d
  rw [mem_npUnique, List.mem_append]

/-! ## ExcitationExpander (`_apply_excitation_single`, fermion.py lines 582-593)

One (configuration, operator) pair of the cross product taken by
`apply_excitations`; the three masks are those produced by
`_transition_str_to_bool`.  A length-`n` jax array is modelled as a function
`Fin n → Bool`. -/

/-- Embedding of `_apply_excitation_single`:
`bts_ret = single_bts == diag`,
`create_crit = all(diag | (False == (single_bts & create)))`,
`annihilate_crit = all(False == ((False == single_bts) & annihilate))`,
returning the new row and `create_crit & annihilate_crit`. -/
def apply_excitation_single (n : ℕ) (single_bts diag create annihilate : Fin n → Bool) :
    (Fin n → Bool) × Bool :=
  let bts_ret : Fin n → Bool := fun i => single_bts i == diag i
  let create_crit : Bool :=
    (List.finRange n).all fun i => diag i || (false == (single_bts i && create i))
  let annihilate_crit : Bool :=
    (List.finRange n).all fun i => false == ((false == single_bts i) && annihilate i)
  (bts_ret, create_crit && annihilate_crit)

/-- Embedding of `_transition_str_to_bool` (fermion.py lines 601-623) acting on
one operator row; the four characters I, +, -, n are modelled as an inductive
type. -/
inductive TransitionOp where
  | ident : TransitionOp
  | create : TransitionOp
  | annihilate : TransitionOp
  | number : TransitionOp
deriving DecidableEq

/-- The three masks `diag`, `create`, `annihilate` of
`_transition_str_to_bool`. -/
def transition_str_to_bool (n : ℕ) (string_rep : Fin n → TransitionOp) :
    (Fin n → Bool) × (Fin n → Bool) × (Fin n → Bool) :=
  (fun i => string_rep i == .ident || string_rep i == .number,
   fun i => string_rep i == .create || string_rep i == .number,
   fun i => string_rep i == .annihilate || string_rep i == .number)

/-! ## IntegralRotator (`_antisymmetric_matrix_from_upper_tri` lines 500-508,
`rotate_integrals` lines 311-348)

numpy and jax return `triu_indices(n, k=1)` and `tril_indices(n, k=-1)` in
row-major order (the order of `np.nonzero` on the triangular mask), and
`K.at[indices].set(vals)` assigns `vals[t]` to position `indices[t]`. -/

/-- All index pairs of an `n` by `n` matrix in row-major order. -/
def pairsRowMajor (n : ℕ) : List (ℕ × ℕ) :=
  (List.range (n * n)).map fun t => (t / n, t % n)

/-- Embedding of `jnp.triu_indices(k_dim, k=1)`: the strict upper triangle in
row-major order. -/
def triu_indices (n : ℕ) : List (ℕ × ℕ) :=
  (pairsRowMajor n).filter fun p => p.1 < p.2

/-- Embedding of `jnp.tril_indices(k_dim, k=-1)`: the strict lower triangle in
row-major order. -/
def tril_indices (n : ℕ) : List (ℕ × ℕ) :=
  (pairsRowMajor n).filter fun p => p.2 < p.1

/-- Embedding of the jax scatter `K.at[idx].set(vals)`: position `(i, j)`
receives the value paired with its last occurrence in `idx`, and keeps the
base entry when it does not occur. -/
def setEntries {F : Type} (base : ℕ → ℕ → F) (idx : List (ℕ × ℕ)) (vals : List F) :
    ℕ → ℕ → F :=
  fun i j =>
    match (idx.zip vals).reverse.find? (fun pv => pv.1.1 == i && pv.1.2 == j) with
    | some pv => pv.2
    | none => base i j

/-- Embedding of `_antisymmetric_matrix_from_upper_tri` (fermion.py lines
500-508): start from the zero matrix, scatter `k_flat` into the row-major
strict upper triangle, then scatter `-k_flat` into the row-major strict lower
triangle. -/
def antisymmetric_matrix_from_upper_tri {F : Type} [Zero F] [Neg F]
    (k_flat : List F) (k_dim : ℕ) : ℕ → ℕ → F :=
  setEntries (setEntries (fun _ _ => 0) (triu_indices k_dim) k_flat)
    (tril_indices k_dim) (k_flat.map Neg.neg)

/-- The expected parameter count `(norb ** 2 - norb) // 2`. -/
def num_params (norb : ℕ) : ℕ := (norb ^ 2 - norb) / 2

/-- Rank-4 tensor over `n` orbitals, the shape of `eri`. -/
def T4 (n : ℕ) : Type := Fin n → Fin n → Fin n → Fin n → ℝ

/-- The generator `K` as a matrix over the reals. -/
noncomputable def Kmat (n : ℕ) (k_flat : List ℝ) : Matrix (Fin n) (Fin n) ℝ :=
  Matrix.of fun i j => antisymmetric_matrix_from_upper_tri k_flat n i.val j.val

/-- The rotation `U = expm(K)` (`LA.expm` in `rotate_integrals`, `expm` from
jax in `_SCISCF_Energy_contract`), modelled by the matrix exponential. -/
noncomputable def Umat (n : ℕ) (k_flat : List ℝ) : Matrix (Fin n) (Fin n) ℝ :=
  NormedSpace.exp ℝ (Kmat n k_flat)

/-- Embedding of the einsum
`"pqrs, pi, qj, rk, sl->ijkl"` applied to `eri` and four copies of `U`. -/
noncomputable def einsum4 (n : ℕ) (eri : T4 n) (U : Matrix (Fin n) (Fin n) ℝ) : T4 n :=
  fun a b c d => ∑ p, ∑ q, ∑ r, ∑ s, eri p q r s * U p a * U q b * U r c * U s d

/-- Embedding of `rotate_integrals` (fermion.py lines 311-348): after the
parameter-length check, build `K`, take `U = expm(K)`, transform `hcore` as
`U^T (hcore U)` and `eri` by contracting all four indices with `U`. -/
noncomputable def rotate_integrals (n : ℕ) (hcore : Matrix (Fin n) (Fin n) ℝ)
    (eri : T4 n) (k_flat : List ℝ) :
    Except FermionError (Matrix (Fin n) (Fin n) ℝ × T4 n) :=
  if k_flat.length ≠ num_params n then .error .dimensionError
  else
    .ok ((Umat n k_flat).transpose * (hcore * Umat n k_flat),
      einsum4 n eri (Umat n k_flat))

/-! ## GradientOptimizer (`_optimize_orbitals_sci` lines 536-554,
`_SCISCF_Energy_contract` lines 557-579) -/

/-- Elementwise scaling of a flat parameter array. -/
def vscale (c : ℝ) (v : List ℝ) : List ℝ := v.map fun x => c * x

/-- Elementwise sum of two flat parameter arrays. -/
def vadd (a b : List ℝ) : List ℝ := List.zipWith (· + ·) a b

/-- Elementwise difference of two flat parameter arrays. -/
def vsub (a b : List ℝ) : List ℝ := List.zipWith (· - ·) a b

/-- Embedding of `_SCISCF_Energy_contract` (fermion.py lines 557-576): the
energy functional `sum(dm1 * hcore_rot) + sum(dm2 * eri_rot / 2)` where the
rotated integrals come from `U = expm(K(k_flat))`. -/
noncomputable def SCISCF_Energy_contract (n : ℕ) (dm1 : Matrix (Fin n) (Fin n) ℝ)
    (dm2 : T4 n) (hcore : Matrix (Fin n) (Fin n) ℝ) (eri : T4 n)
    (k_flat : List ℝ) : ℝ :=
  (∑ i, ∑ j, dm1 i j * ((Umat n k_flat).transpose * (hcore * Umat n k_flat)) i j) +
    ∑ a, ∑ b, ∑ c, ∑ d, dm2 a b c d * einsum4 n eri (Umat n k_flat) a b c d / 2

/-- Embedding of `_SCISCF_Energy_contract_grad = jit(grad(..., argnums=4))`:
reverse-mode automatic differentiation returns the exact derivative of the
energy with respect to each entry of `k_flat`. -/
noncomputable def SCISCF_Energy_contract_grad (n : ℕ) (dm1 : Matrix (Fin n) (Fin n) ℝ)
    (dm2 : T4 n) (hcore : Matrix (Fin n) (Fin n) ℝ) (eri : T4 n)
    (k_flat : List ℝ) : List ℝ :=
  List.ofFn fun i : Fin k_flat.length =>
    fderiv ℝ
      (fun v : Fin k_flat.length → ℝ =>
        SCISCF_Energy_contract n dm1 dm2 hcore eri (List.ofFn v))
      k_flat.get (Pi.single i 1)

/-- One step of the loop body of `_optimize_orbitals_sci` (fermion.py lines
550-554): `prev_update = learning_rate * grad + momentum * prev_update;
k_flat -= prev_update`.  The state is the pair (k_flat, prev_update). -/
def sciStep (g : List ℝ → List ℝ) (learning_rate momentum : ℝ)
    (kv : List ℝ × List ℝ) : List ℝ × List ℝ :=
  let prev_update := vadd (vscale learning_rate (g kv.1)) (vscale momentum kv.2)
  (vsub kv.1 prev_update, prev_update)

/-- The state after running the loop of `_optimize_orbitals_sci` for the given
number of steps. -/
def optimize_orbitals_sci (g : List ℝ → List ℝ) (learning_rate momentum : ℝ) :
    ℕ → (List ℝ × List ℝ) → List ℝ × List ℝ
  | 0, kv => kv
  | nsteps + 1, kv =>
    optimize_orbitals_sci g learning_rate momentum nsteps
      (sciStep g learning_rate momentum kv)

/-- The full parameter trajectory of `_optimize_orbitals_sci`: the list of
successive (k_flat, prev_update) states, one per gradient step. -/
def sciTrajectory (g : List ℝ → List ℝ) (learning_rate momentum : ℝ) :
    ℕ → (List ℝ × List ℝ) → List (List ℝ × List ℝ)
  | 0, _ => []
  | nsteps + 1, kv =>
    sciStep g learning_rate momentum kv ::
      sciTrajectory g learning_rate momentum nsteps
        (sciStep g learning_rate momentum kv)

/-! ## OrbitalOptimizationLoop (`optimize_orbitals`, fermion.py lines 193-308)

To state frame properties about the numpy arrays, array contents live in an
explicit heap indexed by array identity; `optimize_orbitals` receives the id
of the caller's `k_flat` array and a fresh id for the copy it allocates at
line 277 (`k_flat = k_flat.copy()`).  The per-iteration body
{rotate integrals, call the external CI oracle, run the gradient descent on
the local array} is abstracted as `inner`, the value it writes in place into
the local array; the CI oracle itself is outside the covered core. -/

/-- Array heap: contents of every array id. -/
abbrev Heap : Type := ℕ → List ℝ

/-- Writing one array in place. -/
def hupdate (h : Heap) (i : ℕ) (v : List ℝ) : Heap :=
  fun j => if j = i then v else h j

/-- The `for _ in range(num_iters)` loop of `optimize_orbitals`: each
iteration writes the updated parameters in place into the local array. -/
def oo_loop (inner : ℕ → List ℝ → List ℝ) (fresh : ℕ) : ℕ → Heap → Heap
  | 0, h => h
  | t + 1, h => oo_loop inner fresh t (hupdate h fresh (inner t (h fresh)))

/-- Embedding of `optimize_orbitals` (fermion.py lines 193-308) at the level
of validation and array effects: check the parameter length first (line 255),
then assemble and validate the determinant sectors (lines 260-270), then copy
the caller's `k_flat` into a fresh array (line 277) and run the optimization
loop, which writes only that fresh array (lines 279-306); the fresh array id
is returned (line 308). -/
def optimize_orbitals_model (inner : ℕ → List ℝ → List ℝ) (num_iters norb : ℕ)
    (rows : List (List Bool)) (open_shell : Bool) (h : Heap) (caller fresh : ℕ) :
    Except FermionError ℕ × Heap :=
  if (h caller).length ≠ num_params norb then (.error .dimensionError, h)
  else
    let cis := bitstring_matrix_to_ci_strs norb rows open_shell
    match check_ci_strs cis.1 cis.2 with
    | .error e => (.error e, h)
    | .ok _ =>
      let h1 := hupdate h fresh (h caller)
      (.ok fresh, oo_loop inner fresh num_iters h1)

/-! ### Helper lemmas for the rotation and loop theorems -/

theorem setEntries_replicate_zero {m : ℕ} (base : ℕ → ℕ → ℝ)
    (hbase : ∀ i j, base i j = 0) (idx : List (ℕ × ℕ)) (i j : ℕ) :
    setEntries base idx (List.replicate m (0 : ℝ)) i j = 0 := by
  unfold setEntries
  rcases hfind : (idx.zip (List.replicate m (0 : ℝ))).reverse.find?
      (fun pv => pv.1.1 == i && pv.1.2 == j) with _ | pv
  · simp [hfind, hbase]
  · have hmem : pv ∈ (idx.zip (List.replicate m (0 : ℝ))).reverse :=
      List.mem_of_find?_eq_some hfind
    rw [List.mem_reverse] at hmem
    have hz : pv.2 ∈ List.replicate m (0 : ℝ) := (List.of_mem_zip hmem).2
    simp [hfind, List.eq_of_mem_replicate hz]

theorem antisymmetric_matrix_replicate_zero (m n i j : ℕ) :
    antisymmetric_matrix_from_upper_tri (List.replicate m (0 : ℝ)) n i j = 0 := by
  unfold antisymmetric_matrix_from_upper_tri
  rw [show (List.replicate m (0 : ℝ)).map Neg.neg = List.replicate m (0 : ℝ) by
    simp [List.map_replicate]]
  exact setEntries_replicate_zero _
    (fun a b => setEntries_replicate_zero _ (fun _ _ => rfl) _ a b) _ i j

theorem Umat_replicate_zero (n m : ℕ) : Umat n (List.replicate m (0 : ℝ)) = 1 := by
  unfold Umat
  rw [show Kmat n (List.replicate m (0 : ℝ)) = 0 by
    ext i j
    exact antisymmetric_matrix_replicate_zero m n i.val j.val]
  exact NormedSpace.exp_zero

theorem einsum4_one (n : ℕ) (eri : T4 n) : einsum4 n eri 1 = eri := by
  funext a b c d
  unfold einsum4
  simp [Matrix.one_apply, mul_ite, ite_mul, Finset.sum_ite_eq, Finset.sum_ite_eq']

theorem check_ci_strs_ne_dimension (up dn : List ℕ) :
    check_ci_strs up dn ≠ .error .dimensionError := by
  rcases up with _ | ⟨u0, ut⟩ <;> rcases dn with _ | ⟨d0, dt⟩ <;>
    simp only [check_ci_strs] <;> (try split_ifs) <;> simp

theorem oo_loop_frame (inner : ℕ → List ℝ → List ℝ) (fresh : ℕ) (t : ℕ)
    (h : Heap) (j : ℕ) (hj : j ≠ fresh) : oo_loop inner fresh t h j = h j := by
  induction t generalizing h with
  | zero => rfl
  | succ t ih =>
    unfold oo_loop
    rw [ih]
    unfold hupdate
    simp [hj]

/-! ## Claim theorems -/

/-- C1: the claim states that for every n ≥ 2 the matrix built by
`_antisymmetric_matrix_from_upper_tri` has zero diagonal and satisfies
K[i,j] = -K[j,i] for all i, j.  The code violates this for n = 4: with
k_flat = [1, 2, 3, 4, 5, 6] it assigns K[1,2] = k_flat[3] = 4 (row-major
upper triangle) but K[2,1] = -k_flat[2] = -3 (row-major lower triangle), so
K[2,1] ≠ -K[1,2] and the matrix is not antisymmetric, contradicting the
function's own docstring. -/
theorem antisymmetric_matrix_from_upper_tri_not_antisymmetric :
    antisymmetric_matrix_from_upper_tri ([1, 2, 3, 4, 5, 6] : List ℚ) 4 1 2 = 4
    ∧ antisymmetric_matrix_from_upper_tri ([1, 2, 3, 4, 5, 6] : List ℚ) 4 2 1 = -3
    ∧ antisymmetric_matrix_from_upper_tri ([1, 2, 3, 4, 5, 6] : List ℚ) 4 2 1 ≠
        -antisymmetric_matrix_from_upper_tri ([1, 2, 3, 4, 5, 6] : List ℚ) 4 1 2 :=
  ⟨by decide, by decide, by decide⟩

/-- C2: each half-row encodes to the big-endian integer
Σ bit[c] · 2^(width − 1 − c), and decoding that integer back to width bits
recovers the original occupation pattern, for every boolean row. -/
theorem encode_decode_roundtrip (row : List Bool) :
    encodeHalf row =
      (∑ i ∈ Finset.range row.length, if row.getD i false then 2 ^ (row.length - 1 - i) else 0)
    ∧ decodeHalf row.length (encodeHalf row) = row :=
  ⟨rfl, decodeHalf_encodeHalf row⟩

/-- C3: on non-empty sectors, `_check_ci_strs` raises `ConfigurationError`
iff some sector contains a determinant whose population count differs from
that of the sector's first element; when both sectors are uniform it accepts
the configuration set (returning the sorted unique determinants). -/
theorem check_ci_strs_spec (u0 d0 : ℕ) (ut dt : List ℕ) :
    (check_ci_strs (u0 :: ut) (d0 :: dt) = .error .configError ↔
      (∃ x ∈ u0 :: ut, popcount x ≠ popcount u0)
      ∨ ∃ x ∈ d0 :: dt, popcount x ≠ popcount d0)
    ∧ ((∀ x ∈ u0 :: ut, popcount x = popcount u0) →
        (∀ x ∈ d0 :: dt, popcount x = popcount d0) →
        check_ci_strs (u0 :: ut) (d0 :: dt) =
          .ok (npUnique (u0 :: ut), npUnique (d0 :: dt))) := by
  constructor
  · by_cases hu : ∀ x ∈ u0 :: ut, popcount x = popcount u0
    · by_cases hd : ∀ x ∈ d0 :: dt, popcount x = popcount d0
      · have : check_ci_strs (u0 :: ut) (d0 :: dt) =
            .ok (npUnique (u0 :: ut), npUnique (d0 :: dt)) := by
          simp only [check_ci_strs]
          rw [if_pos (by simpa [List.all_eq_true] using hu),
            if_pos (by simpa [List.all_eq_true] using hd)]
        rw [this]
        constructor
        · intro hcontra; exact absurd hcontra (by simp)
        · rintro (⟨x, hx, hne⟩ | ⟨x, hx, hne⟩)
          · exact absurd (hu x hx) hne
          · exact absurd (hd x hx) hne
      · have : check_ci_strs (u0 :: ut) (d0 :: dt) = .error .configError := by
          simp only [check_ci_strs]
          rw [if_pos (by simpa [List.all_eq_true] using hu),
            if_neg (by simpa [List.all_eq_true] using hd)]
        rw [this]
        push_neg at hd
        simp only [true_iff]
        right
        exact hd
    · have : check_ci_strs (u0 :: ut) (d0 :: dt) = .error .configError := by
        simp only [check_ci_strs]
        rw [if_neg (by simpa [List.all_eq_true] using hu)]
      rw [this]
      push_neg at hu
      simp only [true_iff]
      left
      exact hu
  · intro hu hd
    simp only [check_ci_strs]
    rw [if_pos (by simpa [List.all_eq_true] using hu),
      if_pos (by simpa [List.all_eq_true] using hd)]

/-- C4: a (configuration, operator) pair survives iff every pure-Create
position (create and not diag) is unoccupied and every annihilate position is
occupied; and the output row agrees with the original at diag positions and
is the flipped bit elsewhere. -/
theorem apply_excitation_single_spec (n : ℕ)
    (bts diag create annihilate : Fin n → Bool) :
    ((apply_excitation_single n bts diag create annihilate).2 = true ↔
      (∀ i, create i = true → diag i = false → bts i = false)
      ∧ ∀ i, annihilate i = true → bts i = true)
    ∧ ∀ i, (apply_excitation_single n bts diag create annihilate).1 i =
        if diag i = true then bts i else !bts i := by
  constructor
  · unfold apply_excitation_single
    simp only [Bool.and_eq_true, List.all_eq_true, List.mem_finRange, true_implies]
    constructor
    · rintro ⟨h1, h2⟩
      constructor
      · intro i hc hd
        have hi := h1 i
        rw [hc, hd] at hi
        simpa using hi
      · intro i ha
        have hi := h2 i
        rw [ha] at hi
        simpa using hi
    · rintro ⟨h1, h2⟩
      constructor
      · intro i
        cases hdi : diag i
        · cases hci : create i
          · simp [hci]
          · rw [h1 i hci hdi]
            simp
        · simp
      · intro i
        cases hai : annihilate i
        · simp [hai]
        · rw [h2 i hai]
          simp
  · intro i
    unfold apply_excitation_single
    cases hdi : diag i <;> cases hbi : bts i <;> simp [hdi, hbi]

/-- C5: rotating with the all-zero parameter vector of length n(n−1)/2 is the
identity: `rotate_integrals(hcore, eri, zeros)` returns (hcore, eri)
exactly. -/
theorem rotate_integrals_zero (n : ℕ) (hcore : Matrix (Fin n) (Fin n) ℝ)
    (eri : T4 n) :
    rotate_integrals n hcore eri (List.replicate (num_params n) 0) =
      .ok (hcore, eri) := by
  unfold rotate_integrals
  rw [if_neg (by simp)]
  rw [Umat_replicate_zero, einsum4_one, Matrix.transpose_one, Matrix.mul_one,
    Matrix.one_mul]

/-- C6: `rotate_integrals` and `optimize_orbitals` raise `DimensionError` iff
the parameter length differs from n(n−1)/2, the check runs before any
caller-visible mutation, and on that error the heap (all array contents) is
unchanged. -/
theorem dimension_check_spec (n : ℕ) (hcore : Matrix (Fin n) (Fin n) ℝ)
    (eri : T4 n) (k_flat : List ℝ) (inner : ℕ → List ℝ → List ℝ)
    (num_iters norb : ℕ) (rows : List (List Bool)) (open_shell : Bool)
    (h : Heap) (caller fresh : ℕ) :
    (rotate_integrals n hcore eri k_flat = .error .dimensionError ↔
      k_flat.length ≠ num_params n)
    ∧ ((optimize_orbitals_model inner num_iters norb rows open_shell
          h caller fresh).1 = .error .dimensionError ↔
        (h caller).length ≠ num_params norb)
    ∧ ((h caller).length ≠ num_params norb →
        (optimize_orbitals_model inner num_iters norb rows open_shell
          h caller fresh).2 = h) := by
  refine ⟨?_, ?_, ?_⟩
  · unfold rotate_integrals
    by_cases hk : k_flat.length = num_params n
    · rw [if_neg (by simp [hk])]
      simp [hk]
    · rw [if_pos hk]
      simp [hk]
  · unfold optimize_orbitals_model
    by_cases hk : (h caller).length = num_params norb
    · rw [if_neg (by simp [hk])]
      rcases hc : check_ci_strs (bitstring_matrix_to_ci_strs norb rows open_shell).1
          (bitstring_matrix_to_ci_strs norb rows open_shell).2 with e | v
      · simp only [hc]
        constructor
        · intro hcontra
          have : e = FermionError.dimensionError := by
            simpa using hcontra
          exact absurd (this ▸ hc) (check_ci_strs_ne_dimension _ _)
        · intro hcontra
          exact absurd hk hcontra
      · simp [hc, hk]
    · rw [if_pos hk]
      simp [hk]
  · intro hk
    unfold optimize_orbitals_model
    rw [if_pos hk]

/-- C7: the gradient-descent inner loop is deterministic: two runs of
`_optimize_orbitals_sci` with equal density matrices, integrals, learning
rate, momentum and initial parameters produce identical parameter
trajectories. -/
theorem gradient_descent_deterministic (n : ℕ)
    (dm1 dm1' : Matrix (Fin n) (Fin n) ℝ) (dm2 dm2' : T4 n)
    (hcore hcore' : Matrix (Fin n) (Fin n) ℝ) (eri eri' : T4 n)
    (learning_rate learning_rate' momentum momentum' : ℝ)
    (k0 k0' : List ℝ) (num_steps : ℕ)
    (h1 : dm1 = dm1') (h2 : dm2 = dm2') (h3 : hcore = hcore') (h4 : eri = eri')
    (h5 : learning_rate = learning_rate') (h6 : momentum = momentum')
    (h7 : k0 = k0') :
    sciTrajectory (SCISCF_Energy_contract_grad n dm1 dm2 hcore eri)
      learning_rate momentum num_steps (k0, List.replicate k0.length 0) =
    sciTrajectory (SCISCF_Energy_contract_grad n dm1' dm2' hcore' eri')
      learning_rate' momentum' num_steps (k0', List.replicate k0'.length 0) := by
  subst h1 h2 h3 h4 h5 h6 h7
  rfl

/-- Witness for C7: the determinism theorem applied at a concrete
one-orbital input. -/
theorem gradient_descent_deterministic_witness :
    sciTrajectory
      (SCISCF_Energy_contract_grad 1 0 (fun _ _ _ _ => 0) 0 (fun _ _ _ _ => 0))
      0 0 1 ([0], List.replicate ([0] : List ℝ).length 0) =
    sciTrajectory
      (SCISCF_Energy_contract_grad 1 0 (fun _ _ _ _ => 0) 0 (fun _ _ _ _ => 0))
      0 0 1 ([0], List.replicate ([0] : List ℝ).length 0) :=
  gradient_descent_deterministic 1 0 0 (fun _ _ _ _ => 0) (fun _ _ _ _ => 0)
    0 0 (fun _ _ _ _ => 0) (fun _ _ _ _ => 0) 0 0 0 0 [0] [0] 1
    rfl rfl rfl rfl rfl rfl rfl

/-- C8: with `open_shell = False` both returned sectors are the same array,
the sorted duplicate-free union of the encoded left halves and right halves;
with `open_shell = True` the right and left sectors are returned separately
as sorted duplicate-free arrays. -/
theorem bitstring_matrix_to_ci_strs_spec (norb : ℕ) (rows : List (List Bool)) :
    ((bitstring_matrix_to_ci_strs norb rows false).1 =
        (bitstring_matrix_to_ci_strs norb rows false).2
      ∧ List.Sorted (· ≤ ·) (bitstring_matrix_to_ci_strs norb rows false).1
      ∧ (bitstring_matrix_to_ci_strs norb rows false).1.Nodup
      ∧ ∀ x, x ∈ (bitstring_matrix_to_ci_strs norb rows false).1 ↔
          ((x ∈ rows.map fun r => encodeHalf (r.take norb))
            ∨ x ∈ rows.map fun r => encodeHalf (r.drop norb)))
    ∧ ((bitstring_matrix_to_ci_strs norb rows true).1 =
        npUnique (rows.map fun r => encodeHalf (r.drop norb))
      ∧ (bitstring_matrix_to_ci_strs norb rows true).2 =
        npUnique (rows.map fun r => encodeHalf (r.take norb))
      ∧ List.Sorted (· ≤ ·) (bitstring_matrix_to_ci_strs norb rows true).1
      ∧ (bitstring_matrix_to_ci_strs norb rows true).1.Nodup
      ∧ List.Sorted (· ≤ ·) (bitstring_matrix_to_ci_strs norb rows true).2
      ∧ (bitstring_matrix_to_ci_strs norb rows true).2.Nodup
      ∧ (∀ x, x ∈ (bitstring_matrix_to_ci_strs norb rows true).1 ↔
          x ∈ rows.map fun r => encodeHalf (r.drop norb))
      ∧ ∀ x, x ∈ (bitstring_matrix_to_ci_strs norb rows true).2 ↔
          x ∈ rows.map fun r => encodeHalf (r.take norb)) := by
  constructor
  · have hfst : (bitstring_matrix_to_ci_strs norb rows false).1 =
        union1d (npUnique (rows.map fun r => encodeHalf (r.take norb)))
          (npUnique (rows.map fun r => encodeHalf (r.drop norb))) := rfl
    have hsnd : (bitstring_matrix_to_ci_strs norb rows false).2 =
        union1d (npUnique (rows.map fun r => encodeHalf (r.take norb)))
          (npUnique (rows.map fun r => encodeHalf (r.drop norb))) := rfl
    refine ⟨hfst.trans hsnd.symm, ?_, ?_, ?_⟩
    · rw [hfst]
      exact npUnique_sorted _
    · rw [hfst]
      exact npUnique_nodup _
    · intro x
      rw [hfst, mem_union1d, mem_npUnique, mem_npUnique]
  · refine ⟨rfl, rfl, npUnique_sorted _, npUnique_nodup _, npUnique_sorted _,
      npUnique_nodup _, ?_, ?_⟩
    · intro x
      exact mem_npUnique
    · intro x
      exact mem_npUnique

/-- C9: `optimize_orbitals` never mutates the caller's `k_flat` array: on
return or on error the caller's array holds its original contents, and the
optimized parameters are returned only through the fresh array. -/
theorem optimize_orbitals_frame (inner : ℕ → List ℝ → List ℝ)
    (num_iters norb : ℕ) (rows : List (List Bool)) (open_shell : Bool)
    (h : Heap) (caller fresh : ℕ) (hne : fresh ≠ caller) :
    (optimize_orbitals_model inner num_iters norb rows open_shell
        h caller fresh).2 caller = h caller
    ∧ ∀ rid, (optimize_orbitals_model inner num_iters norb rows open_shell
        h caller fresh).1 = .ok rid → rid ≠ caller := by
  unfold optimize_orbitals_model
  by_cases hk : (h caller).length ≠ num_params norb
  · rw [if_pos hk]
    exact ⟨rfl, by intro rid hcontra; simp at hcontra⟩
  · rw [if_neg hk]
    rcases hc : check_ci_strs (bitstring_matrix_to_ci_strs norb rows open_shell).1
        (bitstring_matrix_to_ci_strs norb rows open_shell).2 with e | v
    · simp only [hc]
      exact ⟨by trivial, by intro rid hcontra; simp at hcontra⟩
    · simp only [hc]
      constructor
      · rw [oo_loop_frame inner fresh num_iters _ caller (Ne.symm hne)]
        unfold hupdate
        rw [if_neg (Ne.symm hne)]
      · intro rid hrid
        have : rid = fresh := by simpa using hrid.symm
        rw [this]
        exact hne

/-- Witness for C9: the frame theorem applied at a concrete heap with caller
id 0 and fresh id 1. -/
theorem optimize_orbitals_frame_witness :
    (optimize_orbitals_model (fun _ k => k) 0 0 [] false
        (fun _ => []) 0 1).2 0 = (fun _ => ([] : List ℝ)) 0
    ∧ ∀ rid, (optimize_orbitals_model (fun _ k => k) 0 0 [] false
        (fun _ => []) 0 1).1 = .ok rid → rid ≠ 0 :=
  optimize_orbitals_frame (fun _ k => k) 0 0 [] false (fun _ => []) 0 1
    (by decide)

/-- C10: a zero-row bitstring matrix yields empty determinant sectors, and
both `solve_fermion` and `optimize_orbitals` then fail with an `IndexError`
(reading the first element of an empty sector) rather than the documented
`ConfigurationError`. -/
theorem empty_bitstring_matrix_index_error (norb : ℕ) (open_shell : Bool)
    (inner : ℕ → List ℝ → List ℝ) (num_iters : ℕ) (h : Heap)
    (caller fresh : ℕ) (hlen : (h caller).length = num_params norb) :
    solve_fermion_validate norb [] open_shell = .error .indexError
    ∧ (optimize_orbitals_model inner num_iters norb [] open_shell
        h caller fresh).1 = .error .indexError
    ∧ FermionError.indexError ≠ FermionError.configError := by
  have hcis : bitstring_matrix_to_ci_strs norb [] open_shell = ([], []) := by
    cases open_shell <;> rfl
  refine ⟨?_, ?_, by decide⟩
  · unfold solve_fermion_validate
    rw [hcis]
    rfl
  · unfold optimize_orbitals_model
    rw [if_neg (by simp [hlen]), hcis]
    rfl

/-- Witness for C10: the theorem applied at a concrete empty matrix with a
length-0 parameter array. -/
theorem empty_bitstring_matrix_index_error_witness :
    solve_fermion_validate 0 [] false = .error .indexError
    ∧ (optimize_orbitals_model (fun _ k => k) 0 0 [] false
        (fun _ => []) 0 1).1 = .error .indexError
    ∧ FermionError.indexError ≠ FermionError.configError :=
  empty_bitstring_matrix_index_error 0 false (fun _ k => k) 0
    (fun _ => []) 0 1 rfl

end SQD
